import Mathlib

/-!
Verification of the stack-fragment correlator in
`etw-reader/examples/log-stacks.rs`.

The correlator receives decoded `MSNT_SystemTrace/StackWalk/Stack` records
and matches each one against a Timeline (`events : Vec<Event>`) by scanning
backward from the last index, merging stack fragments into matched events
and maintaining per-thread bookkeeping
(`ThreadState.events_with_unfinished_kernel_stacks`).

The embedding below is a direct shallow translation:
* `u64` addresses and byte values become `Nat`; `i64` timestamps become `Int`
  (with the `u64 as i64` cast made explicit in `u64_as_i64`);
* Rust panics (failed `assert!`, `unwrap()` on `None`, out-of-bounds index,
  and the `events.len() - 1` underflow on an empty timeline) become `none`
  results of `Option`-valued functions;
* the `println!` diagnostics become an explicit `Diag` list.
-/

/-- `is_kernel_address` from log-stacks.rs: for 4-byte pointers kernel space
starts at `0x80000000`, otherwise at `0xFFFF000000000000`. -/
def is_kernel_address (ip : Nat) (pointer_size : Nat) : Bool :=
  if pointer_size = 4 then
    decide (ip ≥ 0x80000000)
  else
    decide (ip ≥ 0xFFFF000000000000)

/-- `struct Event` from log-stacks.rs: one Timeline entry. -/
structure Event where
  name : String
  timestamp : Int
  thread_id : Nat
  stack : Option (List Nat)
  cpu : Nat
  bad_stack : Bool
deriving Repr, DecidableEq

instance : Inhabited Event :=
  ⟨⟨"", 0, 0, none, 0, false⟩⟩

/-- `struct ThreadState` from log-stacks.rs. -/
structure ThreadState where
  process_id : Nat
  events_with_unfinished_kernel_stacks : List Nat
deriving Repr, DecidableEq

/-- `ThreadState::new`. -/
def ThreadState.new (process_id : Nat) : ThreadState :=
  ⟨process_id, []⟩

/-- The diagnostics the correlator prints with `println!`. -/
inductive Diag where
  /-- "more than one associated event …": a second or later match during one
  scan, identifying the previously found match and the current one, and the
  fragment's timestamp, thread and cpu. -/
  | moreThanOneEvent (firstIdx : Nat) (firstName : String) (firstTid firstCpu : Nat)
      (curIdx : Nat) (curName : String) (curTid curCpu : Nat)
      (fragTs : Nat) (fragTid fragCpu : Nat)
  /-- "missing userspace stack? {} < {}". -/
  | missingUserspaceStack (pendingTs eventTs : Int)
  /-- "no matching event". -/
  | noMatchingEvent
deriving Repr, DecidableEq

/-- The `u64 as i64` cast applied to the parsed `EventTimeStamp` before it is
compared with Timeline timestamps. -/
def u64_as_i64 (x : Nat) : Int :=
  if x < 2 ^ 63 then (x : Int) else (x : Int) - 2 ^ 64

/-- The stack-fragment decode:
`parser.buffer.chunks_exact(8).map(u64::from_ne_bytes).collect()`.
Complete 8-byte little-endian chunks are decoded; a remainder of fewer than
8 bytes is dropped by `chunks_exact`. -/
def decodeStack : List Nat → List Nat
  | b0 :: b1 :: b2 :: b3 :: b4 :: b5 :: b6 :: b7 :: rest =>
      (b0 + b1 * 2 ^ 8 + b2 * 2 ^ 16 + b3 * 2 ^ 24 + b4 * 2 ^ 32 + b5 * 2 ^ 40
        + b6 * 2 ^ 48 + b7 * 2 ^ 56) :: decodeStack rest
  | _ => []

/-- The `for e in &thread.events_with_unfinished_kernel_stacks` loop of the
user-mode branch: `events[*e].stack.as_mut().unwrap().extend_from_slice(&stack)`
for each pending index, in order. `none` models the panic when an index is out
of bounds or its entry has no stack. -/
def extendPending (evs : List Event) (pending : List Nat) (frag : List Nat) :
    Option (List Event) :=
  match pending with
  | [] => some evs
  | e :: rest =>
    match evs[e]? with
    | none => none
    | some ev =>
      match ev.stack with
      | none => none
      | some s => extendPending (evs.set e { ev with stack := some (s ++ frag) }) rest frag

/-- The ambiguity diagnostic of lines 85–100: when `found_event` is already
`Some(first_event)`, the "more than one associated event" line identifying the
previously found match and the current match `i` is printed. `none` models the
out-of-bounds panic of `events[first_event]`. -/
def ambDiag (evs : List Event) (found : Option Nat) (diags : List Diag)
    (ts_u64 tid cpu i : Nat) (ei : Event) : Option (List Diag) :=
  match found with
  | none => some diags
  | some first =>
    match evs[first]? with
    | none => none
    | some ef =>
      some (diags ++ [Diag.moreThanOneEvent first ef.name ef.thread_id ef.cpu
        i ei.name ei.thread_id ei.cpu ts_u64 tid cpu])

/-- The `ends_in_kernel` branch, lines 101–121: if the matched entry already
has a stack, assert the index is registered in the pending list (`none` models
the failed `assert!`) and append the fragment; otherwise register the index and
set the stack to the fragment. `ei` is the entry `events[i]`. -/
def kernelMerge (evs : List Event) (pending : List Nat) (frag : List Nat)
    (i : Nat) (ei : Event) : Option (List Event × List Nat) :=
  match ei.stack with
  | some existing_stack =>
    -- assert!(thread.events_with_unfinished_kernel_stacks.contains(&i))
    if i ∈ pending then
      some (evs.set i { ei with stack := some (existing_stack ++ frag) }, pending)
    else none
  | none =>
    some (evs.set i { ei with stack := some frag }, pending ++ [i])

/-- The user-mode branch, lines 122–161: extend every pending kernel stack with
the fragment, attach/verify the matched entry's stack, then flag the last
pending entry `bad_stack` when its timestamp is strictly below the matched
entry's (emitting the "missing userspace stack?" diagnostic). The caller clears
the pending list (the branch ends with
`thread.events_with_unfinished_kernel_stacks.clear()`). Returns the updated
Timeline and the extra diagnostics; `none` models a panic (failed `assert!`,
`unwrap` of a missing stack, or an out-of-bounds index). -/
def userMerge (evs : List Event) (pending : List Nat) (frag : List Nat)
    (i : Nat) : Option (List Event × List Diag) :=
  match extendPending evs pending frag with
  | none => none
  | some evs1 =>
    match evs1[i]? with
    | none => none
    | some ei1 =>
      let evs2? : Option (List Event) :=
        match ei1.stack with
        | some _ =>
          -- any existing stacks should only have come from kernel stacks
          -- assert!(thread.events_with_unfinished_kernel_stacks.contains(&i))
          if i ∈ pending then some evs1 else none
        | none => some (evs1.set i { ei1 with stack := some frag })
      match evs2? with
      | none => none
      | some evs2 =>
        match pending.getLast? with
        | none => some (evs2, [])
        | some l =>
          match evs2[l]?, evs2[i]? with
          | some el, some ei2 =>
            if el.timestamp < ei2.timestamp then
              some (evs2.set l { el with bad_stack := true },
                [Diag.missingUserspaceStack el.timestamp ei2.timestamp])
            else
              some (evs2, [])
          | _, _ => none

/-- The per-match merge, lines 85–164 of log-stacks.rs: the body executed when
`events[i].timestamp == timestamp && events[i].thread_id == thread_id`.
Takes the Timeline, the thread's pending list, `found_event`, the diagnostics
so far, the decoded fragment, `ends_in_kernel`, the raw fragment timestamp, the
fragment's thread id and cpu, and the matched index `i`; returns the updated
`(events, pending, found_event, diags)`, or `none` on a panic (failed
`assert!` or `unwrap`). -/
def mergeMatch (evs : List Event) (pending : List Nat) (found : Option Nat)
    (diags : List Diag) (frag : List Nat) (endsK : Bool) (ts_u64 : Nat)
    (tid cpu i : Nat) : Option (List Event × List Nat × Option Nat × List Diag) :=
  match evs[i]? with
  | none => none
  | some ei =>
    match ambDiag evs found diags ts_u64 tid cpu i ei with
    | none => none
    | some diags1 =>
      if endsK then
        match kernelMerge evs pending frag i ei with
        | none => none
        | some (evs', pending') => some (evs', pending', some i, diags1)
      else
        match userMerge evs pending frag i with
        | none => none
        | some (evs', extra) => some (evs', [], some i, diags1 ++ extra)

/-- The backward scan, lines 72–167 of log-stacks.rs:
`let mut i = events.len() - 1; while i > 0 { …; i -= 1 }`.
The argument is the index examined next; the loop exits without examining
index 0. At each examined index: break if its timestamp is strictly below the
fragment timestamp, merge if timestamp and thread id both match, otherwise
skip. -/
def scanLoop (evs : List Event) (pending : List Nat) (found : Option Nat)
    (diags : List Diag) (frag : List Nat) (endsK : Bool) (ts_u64 : Nat) (ts : Int)
    (tid cpu : Nat) : Nat → Option (List Event × List Nat × Option Nat × List Diag)
  | 0 => some (evs, pending, found, diags)
  | i + 1 =>
    match evs[i + 1]? with
    | none => none
    | some ei =>
      if ei.timestamp < ts then
        some (evs, pending, found, diags)
      else if ei.timestamp = ts ∧ ei.thread_id = tid then
        match mergeMatch evs pending found diags frag endsK ts_u64 tid cpu (i + 1) with
        | none => none
        | some (evs', pending', found', diags') =>
          scanLoop evs' pending' found' diags' frag endsK ts_u64 ts tid cpu i
      else
        scanLoop evs pending found diags frag endsK ts_u64 ts tid cpu i

/-- The per-thread map (`threads: HashMap<u32, ThreadState>`), as a function
from thread id. -/
def Threads : Type := Nat → Option ThreadState

/-- Map update: models mutating (or inserting) one thread's entry. -/
def setThread (ths : Threads) (tid : Nat) (st : ThreadState) : Threads :=
  fun t => if t = tid then some st else ths t

/-- The pending list of a thread id; an absent thread has no pending entries. -/
def pendingOf (ths : Threads) (t : Nat) : List Nat :=
  match ths t with
  | none => []
  | some st => st.events_with_unfinished_kernel_stacks

/-- The whole `"MSNT_SystemTrace/StackWalk/Stack"` arm, lines 53–171:
look up / create the ThreadState, decode the payload, classify the last
address, run the backward scan from `events.len() - 1`, report "no matching
event" when nothing matched, and write back the thread's pending list.
`none` models a panic: the `stack.last().unwrap()` on an empty decoded list,
the `events.len() - 1` underflow on an empty Timeline, or a panic inside the
scan. -/
def processFragment (evs : List Event) (ths : Threads) (stackThread stackProcess : Nat)
    (ts_u64 cpu : Nat) (payload : List Nat) :
    Option (List Event × Threads × List Diag) :=
  let tstate :=
    match ths stackThread with
    | some t => t
    | none => ThreadState.new stackProcess
  let frag := decodeStack payload
  match frag.getLast? with
  | none => none
  | some lastAddr =>
    let endsK := is_kernel_address lastAddr 8
    match evs.length with
    | 0 => none
    | n + 1 =>
      match scanLoop evs tstate.events_with_unfinished_kernel_stacks none [] frag endsK
          ts_u64 (u64_as_i64 ts_u64) stackThread cpu n with
      | none => none
      | some (evs', pending', found', diags') =>
        let diags'' := if found'.isNone then diags' ++ [Diag.noMatchingEvent] else diags'
        some (evs', setThread ths stackThread
          { tstate with events_with_unfinished_kernel_stacks := pending' }, diags'')

/-- Processing of one complete StackWalk record: the correlator arm followed by
the unconditional Timeline append (lines 196–203) of an `Event` for the record
itself, carrying the record header's timestamp and native thread id, with
`stack = none` and `bad_stack = false`. -/
def processStackRecord (evs : List Event) (ths : Threads)
    (stackThread stackProcess ts_u64 cpu : Nat) (payload : List Nat)
    (headerTs : Int) (headerTid : Nat) :
    Option (List Event × Threads × List Diag) :=
  match processFragment evs ths stackThread stackProcess ts_u64 cpu payload with
  | none => none
  | some (evs', ths', diags') =>
    some (evs' ++ [⟨"MSNT_SystemTrace/StackWalk/Stack", headerTs, headerTid, none, cpu, false⟩],
      ths', diags')

/-! ### Derived accessors and reference definitions used by the statements -/

/-- The Timeline entry at index `j` (the default entry when out of range). -/
def evAt (evs : List Event) (j : Nat) : Event :=
  (evs[j]?).getD default

/-- The stack of the Timeline entry at index `j`. -/
def stackAt (evs : List Event) (j : Nat) : Option (List Nat) :=
  (evAt evs j).stack

/-- The timestamp of the Timeline entry at index `j`. -/
def tsAt (evs : List Event) (j : Nat) : Int :=
  (evAt evs j).timestamp

/-- The thread id of the Timeline entry at index `j`. -/
def tidAt (evs : List Event) (j : Nat) : Nat :=
  (evAt evs j).thread_id

/-- The `bad_stack` flag of the Timeline entry at index `j`. -/
def badAt (evs : List Event) (j : Nat) : Bool :=
  (evAt evs j).bad_stack

/-- The indices the backward scan matches, read off declaratively from the
spec's description of step 3: starting at index `i` and walking downward,
stop before the first index whose timestamp is strictly below the fragment
timestamp, never examine index 0, and keep exactly the examined indices whose
timestamp and thread id both equal the fragment's. Listed in scan order
(highest index first). -/
def matchIndices (evs : List Event) (ts : Int) (tid : Nat) : Nat → List Nat
  | 0 => []
  | i + 1 =>
    if tsAt evs (i + 1) < ts then []
    else if tsAt evs (i + 1) = ts ∧ tidAt evs (i + 1) = tid then
      (i + 1) :: matchIndices evs ts tid i
    else
      matchIndices evs ts tid i

/-- Folding the per-match merge over a list of matched indices, in order. -/
def applyMatches (evs : List Event) (pending : List Nat) (found : Option Nat)
    (diags : List Diag) (frag : List Nat) (endsK : Bool) (ts_u64 tid cpu : Nat) :
    List Nat → Option (List Event × List Nat × Option Nat × List Diag)
  | [] => some (evs, pending, found, diags)
  | j :: rest =>
    match mergeMatch evs pending found diags frag endsK ts_u64 tid cpu j with
    | none => none
    | some (evs', pending', found', diags') =>
      applyMatches evs' pending' found' diags' frag endsK ts_u64 tid cpu rest

/-- The Timeline component of a correlator result. -/
def recResultEvents (r : Option (List Event × Threads × List Diag)) :
    Option (List Event) :=
  r.map (fun x => x.1)

/-- The diagnostics component of a correlator result. -/
def recResultDiags (r : Option (List Event × Threads × List Diag)) :
    Option (List Diag) :=
  r.map (fun x => x.2.2)

/-- The pending list of thread `t` in a correlator result. -/
def recResultPending (r : Option (List Event × Threads × List Diag)) (t : Nat) :
    Option (List Nat) :=
  r.map (fun x => pendingOf x.2.1 t)

/-- The bookkeeping invariant: every index registered in any thread's
`events_with_unfinished_kernel_stacks` refers to a valid Timeline position
whose entry has an attached stack. -/
def CorrInv (evs : List Event) (ths : Threads) : Prop :=
  ∀ t, ∀ j ∈ pendingOf ths t, j < evs.length ∧ (stackAt evs j).isSome

/-- The empty per-thread map (no thread observed yet). -/
def emptyThreads : Threads :=
  fun _ => none

/-- A per-thread map holding a single thread's state. -/
def oneThread (t : Nat) (st : ThreadState) : Threads :=
  fun x => if x = t then some st else none

/-- Pointwise preservation of the fields the scan's control flow reads:
equal length and equal timestamp and thread id at every index. -/
def ShapeEq (evs evs' : List Event) : Prop :=
  evs'.length = evs.length ∧ ∀ j, tsAt evs' j = tsAt evs j ∧ tidAt evs' j = tidAt evs j

/-- Every attached stack is preserved up to appending a suffix. -/
def StackExt (evs evs' : List Event) : Prop :=
  ∀ j v, stackAt evs j = some v → ∃ w, stackAt evs' j = some (v ++ w)

/-! ### Basic lemmas about the accessors -/

theorem getElem?_of_lt {evs : List Event} {j : Nat} (h : j < evs.length) :
    evs[j]? = some (evAt evs j) := by
  rw [evAt, List.getElem?_eq_getElem h]
  rfl

theorem lt_of_getElem?_some {evs : List Event} {j : Nat} {e : Event}
    (h : evs[j]? = some e) : j < evs.length :=
  (List.getElem?_eq_some.mp h).1

theorem evAt_of_getElem? {evs : List Event} {j : Nat} {e : Event}
    (h : evs[j]? = some e) : evAt evs j = e := by
  rw [evAt, h]
  rfl

theorem stackAt_some_lt {evs : List Event} {j : Nat} {v : List Nat}
    (h : stackAt evs j = some v) : j < evs.length := by
  by_contra hj
  rw [stackAt, evAt, List.getElem?_eq_none (Nat.le_of_not_lt hj)] at h
  exact Option.noConfusion h

theorem evAt_set_self {evs : List Event} {j : Nat} (h : j < evs.length)
    (e : Event) : evAt (evs.set j e) j = e := by
  rw [evAt, List.getElem?_set_self h]
  rfl

theorem evAt_set_ne {evs : List Event} {k j : Nat} (h : k ≠ j) (e : Event) :
    evAt (evs.set k e) j = evAt evs j := by
  rw [evAt, List.getElem?_set_ne h, evAt]

theorem evAt_append_lt {evs l : List Event} {j : Nat} (h : j < evs.length) :
    evAt (evs ++ l) j = evAt evs j := by
  rw [evAt, List.getElem?_append]
  simp only [if_pos h]
  rfl

theorem shapeEq_refl (evs : List Event) : ShapeEq evs evs :=
  ⟨rfl, fun _ => ⟨rfl, rfl⟩⟩

theorem shapeEq_trans {e1 e2 e3 : List Event} (h1 : ShapeEq e1 e2)
    (h2 : ShapeEq e2 e3) : ShapeEq e1 e3 :=
  ⟨h2.1.trans h1.1, fun j =>
    ⟨((h2.2 j).1).trans ((h1.2 j).1), ((h2.2 j).2).trans ((h1.2 j).2)⟩⟩

theorem stackExt_refl (evs : List Event) : StackExt evs evs :=
  fun _ v h => ⟨[], by rw [h, List.append_nil]⟩

theorem stackExt_trans {e1 e2 e3 : List Event} (h1 : StackExt e1 e2)
    (h2 : StackExt e2 e3) : StackExt e1 e3 := by
  intro j v h
  obtain ⟨w1, hw1⟩ := h1 j v h
  obtain ⟨w2, hw2⟩ := h2 j (v ++ w1) hw1
  exact ⟨w1 ++ w2, by rw [hw2, List.append_assoc]⟩

theorem stackExt_isSome {evs evs' : List Event} (h : StackExt evs evs')
    {j : Nat} (hs : (stackAt evs j).isSome) : (stackAt evs' j).isSome := by
  obtain ⟨v, hv⟩ := Option.isSome_iff_exists.mp hs
  obtain ⟨w, hw⟩ := h j v hv
  rw [hw]
  rfl

/-! ### Lemmas about `extendPending` -/

theorem extendPending_spec :
    ∀ {p : List Nat} {evs evs1 : List Event} {frag : List Nat},
      extendPending evs p frag = some evs1 →
      evs1.length = evs.length
      ∧ (∀ j, tsAt evs1 j = tsAt evs j ∧ tidAt evs1 j = tidAt evs j
          ∧ badAt evs1 j = badAt evs j)
      ∧ StackExt evs evs1
      ∧ (∀ j, j ∉ p → stackAt evs1 j = stackAt evs j) := by
  intro p
  induction p with
  | nil =>
    intro evs evs1 frag h
    rw [extendPending] at h
    cases h
    exact ⟨rfl, fun _ => ⟨rfl, rfl, rfl⟩, stackExt_refl _, fun _ _ => rfl⟩
  | cons e rest ih =>
    intro evs evs1 frag h
    rw [extendPending] at h
    cases hge : evs[e]? with
    | none =>
      simp only [hge] at h
      exact Option.noConfusion h
    | some ev =>
      simp only [hge] at h
      cases hst : ev.stack with
      | none =>
        simp only [hst] at h
        exact Option.noConfusion h
      | some s =>
        simp only [hst] at h
        have he : e < evs.length := lt_of_getElem?_some hge
        have hev : evAt evs e = ev := evAt_of_getElem? hge
        set evsm := evs.set e { ev with stack := some (s ++ frag) } with hevsm
        obtain ⟨ihlen, ihfields, ihext, ihuntouched⟩ := ih h
        have hlenm : evsm.length = evs.length := List.length_set evs e _
        have hfieldsm : ∀ j, tsAt evsm j = tsAt evs j ∧ tidAt evsm j = tidAt evs j
            ∧ badAt evsm j = badAt evs j := by
          intro j
          by_cases hje : e = j
          · subst hje
            rw [tsAt, tidAt, badAt, evAt_set_self he, tsAt, tidAt, badAt, hev]
            exact ⟨rfl, rfl, rfl⟩
          · rw [tsAt, tidAt, badAt, evAt_set_ne hje, ← tsAt, ← tidAt, ← badAt]
            exact ⟨rfl, rfl, rfl⟩
        have hextm : StackExt evs evsm := by
          intro j v hv
          by_cases hje : e = j
          · subst hje
            rw [stackAt, hev, hst] at hv
            cases hv
            exact ⟨frag, by rw [stackAt, evAt_set_self he]⟩
          · exact ⟨[], by rw [stackAt, evAt_set_ne hje, ← stackAt, hv, List.append_nil]⟩
        refine ⟨hlenm ▸ ihlen, ?_, stackExt_trans hextm ihext, ?_⟩
        · intro j
          obtain ⟨h1, h2, h3⟩ := ihfields j
          obtain ⟨g1, g2, g3⟩ := hfieldsm j
          exact ⟨h1.trans g1, h2.trans g2, h3.trans g3⟩
        · intro j hj
          have hje : j ≠ e := fun hc => hj (hc ▸ List.mem_cons_self e rest)
          have hjr : j ∉ rest := fun hc => hj (List.mem_cons_of_mem e hc)
          rw [ihuntouched j hjr, stackAt, evAt_set_ne (Ne.symm hje), ← stackAt]

theorem extendPending_exists :
    ∀ {p : List Nat} {evs : List Event} {frag : List Nat},
      (∀ j ∈ p, j < evs.length ∧ (stackAt evs j).isSome) →
      ∃ evs1, extendPending evs p frag = some evs1 := by
  intro p
  induction p with
  | nil => exact fun _ => ⟨_, rfl⟩
  | cons e rest ih =>
    intro evs frag hp
    obtain ⟨he, hs⟩ := hp e (List.mem_cons_self e rest)
    obtain ⟨s, hsv⟩ := Option.isSome_iff_exists.mp hs
    have hge : evs[e]? = some (evAt evs e) := getElem?_of_lt he
    have hstep : ∀ j ∈ rest,
        j < (evs.set e { evAt evs e with stack := some (s ++ frag) }).length
        ∧ (stackAt (evs.set e { evAt evs e with stack := some (s ++ frag) }) j).isSome := by
      intro j hj
      obtain ⟨hjl, hjs⟩ := hp j (List.mem_cons_of_mem e hj)
      refine ⟨by rw [List.length_set]; exact hjl, ?_⟩
      by_cases hje : e = j
      · subst hje
        rw [stackAt, evAt_set_self he]
        rfl
      · rw [stackAt, evAt_set_ne hje, ← stackAt]
        exact hjs
    obtain ⟨evs1, h1⟩ := ih hstep
    refine ⟨evs1, ?_⟩
    rw [extendPending]
    simp only [hge]
    rw [stackAt] at hsv
    simp only [hsv]
    exact h1

theorem extendPending_map :
    ∀ {p : List Nat} {evs evs1 : List Event} {frag : List Nat},
      p.Nodup →
      extendPending evs p frag = some evs1 →
      ∀ j ∈ p, stackAt evs1 j = (stackAt evs j).map (fun v => v ++ frag) := by
  intro p
  induction p with
  | nil => intro evs evs1 frag _ _ j hj; exact absurd hj (List.not_mem_nil j)
  | cons e rest ih =>
    intro evs evs1 frag hnd h j hj
    rw [extendPending] at h
    cases hge : evs[e]? with
    | none =>
      simp only [hge] at h
      exact Option.noConfusion h
    | some ev =>
      simp only [hge] at h
      cases hst : ev.stack with
      | none =>
        simp only [hst] at h
        exact Option.noConfusion h
      | some s =>
        simp only [hst] at h
        have he : e < evs.length := lt_of_getElem?_some hge
        have hev : evAt evs e = ev := evAt_of_getElem? hge
        have hner : e ∉ rest := (List.nodup_cons.mp hnd).1
        rcases List.mem_cons.mp hj with hje | hjr
        · subst hje
          have huntouched := (extendPending_spec h).2.2.2 j hner
          rw [huntouched, stackAt, evAt_set_self he]
          rw [stackAt, hev, hst]
          rfl
        · have hjne : j ≠ e := fun hc => hner (hc ▸ hjr)
          have := ih (List.nodup_cons.mp hnd).2 h j hjr
          rw [this, stackAt, evAt_set_ne (Ne.symm hjne), ← stackAt]

theorem mem_of_getLast?_some {l : List Nat} {a : Nat} (h : l.getLast? = some a) :
    a ∈ l := by
  have hm : a ∈ l.getLast? := by rw [h]; rfl
  obtain ⟨hne, heq⟩ := List.mem_getLast?_eq_getLast hm
  exact heq ▸ List.getLast_mem hne

/-- The invariant of one thread's pending list against the Timeline. -/
def PendInv (evs : List Event) (p : List Nat) : Prop :=
  ∀ j ∈ p, j < evs.length ∧ (stackAt evs j).isSome

/-! ### Lemmas about the per-match merge -/

theorem kernelMerge_some_mem {evs : List Event} {pending frag : List Nat}
    {i : Nat} {ei : Event} {v : List Nat} (hst : ei.stack = some v)
    (hmem : i ∈ pending) :
    kernelMerge evs pending frag i ei
      = some (evs.set i { ei with stack := some (v ++ frag) }, pending) := by
  unfold kernelMerge
  simp only [hst, if_pos hmem]

theorem kernelMerge_some_notMem {evs : List Event} {pending frag : List Nat}
    {i : Nat} {ei : Event} {v : List Nat} (hst : ei.stack = some v)
    (hmem : i ∉ pending) :
    kernelMerge evs pending frag i ei = none := by
  unfold kernelMerge
  simp only [hst, if_neg hmem]

theorem kernelMerge_none {evs : List Event} {pending frag : List Nat}
    {i : Nat} {ei : Event} (hst : ei.stack = none) :
    kernelMerge evs pending frag i ei
      = some (evs.set i { ei with stack := some frag }, pending ++ [i]) := by
  unfold kernelMerge
  simp only [hst]

theorem shapeEq_set_stack {evs : List Event} {i : Nat} {ei : Event}
    (hi : i < evs.length) (hev : evAt evs i = ei) (s : Option (List Nat)) :
    ShapeEq evs (evs.set i { ei with stack := s }) := by
  refine ⟨List.length_set evs i _, fun j => ?_⟩
  by_cases hij : i = j
  · subst hij
    rw [tsAt, tidAt, evAt_set_self hi, tsAt, tidAt, hev]
    exact ⟨rfl, rfl⟩
  · rw [tsAt, tidAt, evAt_set_ne hij, ← tsAt, ← tidAt]
    exact ⟨rfl, rfl⟩

theorem kernelMerge_shape {evs evs' : List Event} {pending pending' frag : List Nat}
    {i : Nat} {ei : Event} (hei : evs[i]? = some ei)
    (h : kernelMerge evs pending frag i ei = some (evs', pending')) :
    ShapeEq evs evs' ∧ StackExt evs evs' := by
  have hi : i < evs.length := lt_of_getElem?_some hei
  have hev : evAt evs i = ei := evAt_of_getElem? hei
  unfold kernelMerge at h
  cases hst : ei.stack with
  | some v =>
    simp only [hst] at h
    by_cases hmem : i ∈ pending
    · simp only [if_pos hmem, Option.some.injEq, Prod.mk.injEq] at h
      obtain ⟨he, -⟩ := h
      subst he
      refine ⟨shapeEq_set_stack hi hev _, ?_⟩
      intro j w hw
      by_cases hij : i = j
      · subst hij
        rw [stackAt, hev, hst] at hw
        have hvw := Option.some.inj hw
        subst hvw
        exact ⟨frag, by rw [stackAt, evAt_set_self hi]⟩
      · exact ⟨[], by rw [stackAt, evAt_set_ne hij, ← stackAt, hw, List.append_nil]⟩
    · simp only [if_neg hmem] at h
      exact Option.noConfusion h
  | none =>
    simp only [hst, Option.some.injEq, Prod.mk.injEq] at h
    obtain ⟨he, -⟩ := h
    subst he
    refine ⟨shapeEq_set_stack hi hev _, ?_⟩
    intro j w hw
    by_cases hij : i = j
    · subst hij
      rw [stackAt, hev, hst] at hw
      exact Option.noConfusion hw
    · exact ⟨[], by rw [stackAt, evAt_set_ne hij, ← stackAt, hw, List.append_nil]⟩

theorem kernelMerge_pendInv {evs evs' : List Event} {pending pending' frag : List Nat}
    {i : Nat} {ei : Event} (hei : evs[i]? = some ei)
    (hp : PendInv evs pending)
    (h : kernelMerge evs pending frag i ei = some (evs', pending')) :
    PendInv evs' pending' := by
  have hi : i < evs.length := lt_of_getElem?_some hei
  obtain ⟨hsh, hext⟩ := kernelMerge_shape hei h
  have hpres : ∀ j ∈ pending, j < evs'.length ∧ (stackAt evs' j).isSome := by
    intro j hj
    obtain ⟨hjl, hjs⟩ := hp j hj
    exact ⟨hsh.1 ▸ hjl, stackExt_isSome hext hjs⟩
  have hev : evAt evs i = ei := evAt_of_getElem? hei
  unfold kernelMerge at h
  cases hst : ei.stack with
  | some v =>
    simp only [hst] at h
    by_cases hmem : i ∈ pending
    · simp only [if_pos hmem, Option.some.injEq, Prod.mk.injEq] at h
      exact h.2 ▸ hpres
    · simp only [if_neg hmem] at h
      exact Option.noConfusion h
  | none =>
    simp only [hst, Option.some.injEq, Prod.mk.injEq] at h
    obtain ⟨he, hpend⟩ := h
    subst he
    subst hpend
    intro j hj
    rcases List.mem_append.mp hj with hjp | hji
    · exact hpres j hjp
    · have hji' : j = i := List.mem_singleton.mp hji
      subst hji'
      refine ⟨by rw [List.length_set]; exact hi, ?_⟩
      rw [stackAt, evAt_set_self hi]
      rfl

theorem userMerge_spec {evs : List Event} {p frag : List Nat} {i : Nat}
    (hi : i < evs.length)
    (hp : PendInv evs p)
    (hassert : (stackAt evs i).isSome → i ∈ p) :
    ∃ evs' extra,
      userMerge evs p frag i = some (evs', extra)
      ∧ evs'.length = evs.length
      ∧ (∀ j, tsAt evs' j = tsAt evs j ∧ tidAt evs' j = tidAt evs j)
      ∧ (p.Nodup → ∀ j ∈ p, stackAt evs' j = (stackAt evs j).map (fun v => v ++ frag))
      ∧ (i ∉ p → stackAt evs' i = some frag)
      ∧ (∀ j, j ∉ p → j ≠ i → stackAt evs' j = stackAt evs j)
      ∧ (match p.getLast? with
         | none => extra = [] ∧ ∀ j, badAt evs' j = badAt evs j
         | some l =>
             extra = (if tsAt evs l < tsAt evs i then
               [Diag.missingUserspaceStack (tsAt evs l) (tsAt evs i)] else [])
             ∧ badAt evs' l = (badAt evs l || decide (tsAt evs l < tsAt evs i))
             ∧ ∀ j, j ≠ l → badAt evs' j = badAt evs j) := by
  obtain ⟨evs1, hEP⟩ := @extendPending_exists p evs frag hp
  obtain ⟨hlen1, hfields1, hext1, huntouched1⟩ := extendPending_spec hEP
  have hi1 : i < evs1.length := hlen1 ▸ hi
  have hge1 : evs1[i]? = some (evAt evs1 i) := getElem?_of_lt hi1
  have hstep2 : ∃ evs2,
      (match (evAt evs1 i).stack with
        | some _ => if i ∈ p then some evs1 else none
        | none => some (evs1.set i { evAt evs1 i with stack := some frag })) = some evs2
      ∧ evs2.length = evs.length
      ∧ (∀ j, tsAt evs2 j = tsAt evs j ∧ tidAt evs2 j = tidAt evs j
          ∧ badAt evs2 j = badAt evs1 j)
      ∧ (p.Nodup → ∀ j ∈ p, stackAt evs2 j = (stackAt evs j).map (fun v => v ++ frag))
      ∧ (i ∉ p → stackAt evs2 i = some frag)
      ∧ (∀ j, j ∉ p → j ≠ i → stackAt evs2 j = stackAt evs j) := by
    cases hsi : (stackAt evs i) with
    | some v =>
      have hmem : i ∈ p := hassert (by rw [hsi]; rfl)
      have hs1 : (stackAt evs1 i).isSome := stackExt_isSome hext1 (by rw [hsi]; rfl)
      obtain ⟨s1, hs1v⟩ := Option.isSome_iff_exists.mp hs1
      rw [stackAt] at hs1v
      refine ⟨evs1, by simp only [hs1v, if_pos hmem], hlen1, ?_, ?_, ?_, ?_⟩
      · exact fun j => ⟨(hfields1 j).1, (hfields1 j).2.1, rfl⟩
      · exact fun hnd => extendPending_map hnd hEP
      · exact fun hmem' => absurd hmem hmem'
      · exact fun j hj _ => huntouched1 j hj
    | none =>
      have hmem : i ∉ p := by
        intro hmem
        have := (hp i hmem).2
        rw [hsi] at this
        exact Bool.noConfusion this
      have hs1 : stackAt evs1 i = none := by rw [huntouched1 i hmem, hsi]
      rw [stackAt] at hs1
      refine ⟨evs1.set i { evAt evs1 i with stack := some frag },
        by simp only [hs1], by rw [List.length_set]; exact hlen1, ?_, ?_, ?_, ?_⟩
      · intro j
        by_cases hij : i = j
        · subst hij
          rw [tsAt, tidAt, badAt, evAt_set_self hi1, tsAt, tidAt, badAt]
          exact ⟨(hfields1 i).1, (hfields1 i).2.1, rfl⟩
        · rw [tsAt, tidAt, badAt, evAt_set_ne hij, ← tsAt, ← tidAt, ← badAt]
          exact ⟨(hfields1 j).1, (hfields1 j).2.1, rfl⟩
      · intro hnd j hj
        have hij : i ≠ j := fun hc => hmem (hc ▸ hj)
        rw [stackAt, evAt_set_ne hij, ← stackAt]
        exact extendPending_map hnd hEP j hj
      · intro _
        rw [stackAt, evAt_set_self hi1]
      · intro j hjp hji
        rw [stackAt, evAt_set_ne (Ne.symm hji), ← stackAt]
        exact huntouched1 j hjp
  obtain ⟨evs2, heq2, hlen2, hfields2, hmap2, hfresh2, huntouched2⟩ := hstep2
  have hbad2 : ∀ j, badAt evs2 j = badAt evs j := by
    intro j
    rw [(hfields2 j).2.2, (hfields1 j).2.2]
  cases hlast : p.getLast? with
  | none =>
    refine ⟨evs2, [], ?_, hlen2, fun j => ⟨(hfields2 j).1, (hfields2 j).2.1⟩,
      hmap2, hfresh2, huntouched2, ⟨rfl, hbad2⟩⟩
    unfold userMerge
    simp only [hEP, hge1, heq2, hlast]
  | some l =>
    have hlp : l ∈ p := mem_of_getLast?_some hlast
    have hll : l < evs2.length := hlen2 ▸ (hp l hlp).1
    have hil : i < evs2.length := hlen2 ▸ hi
    have hgel : evs2[l]? = some (evAt evs2 l) := getElem?_of_lt hll
    have hgei : evs2[i]? = some (evAt evs2 i) := getElem?_of_lt hil
    have htsl : (evAt evs2 l).timestamp = tsAt evs l := (hfields2 l).1
    have htsi : (evAt evs2 i).timestamp = tsAt evs i := (hfields2 i).1
    by_cases hcond : tsAt evs l < tsAt evs i
    · refine ⟨evs2.set l { evAt evs2 l with bad_stack := true },
        [Diag.missingUserspaceStack (tsAt evs l) (tsAt evs i)], ?_, ?_, ?_, ?_, ?_, ?_, ?_⟩
      · unfold userMerge
        simp only [hEP, hge1, heq2, hlast, hgel, hgei, htsl, htsi, if_pos hcond]
      · rw [List.length_set]; exact hlen2
      · intro j
        by_cases hlj : l = j
        · subst hlj
          rw [tsAt, tidAt, evAt_set_self hll, tsAt, tidAt]
          exact ⟨(hfields2 l).1, (hfields2 l).2.1⟩
        · rw [tsAt, tidAt, evAt_set_ne hlj, ← tsAt, ← tidAt]
          exact ⟨(hfields2 j).1, (hfields2 j).2.1⟩
      · intro hnd j hj
        by_cases hlj : l = j
        · subst hlj
          rw [stackAt, evAt_set_self hll, ← stackAt]
          exact hmap2 hnd l hj
        · rw [stackAt, evAt_set_ne hlj, ← stackAt]
          exact hmap2 hnd j hj
      · intro hmem
        have hli : l ≠ i := fun hc => hmem (hc ▸ hlp)
        rw [stackAt, evAt_set_ne hli, ← stackAt]
        exact hfresh2 hmem
      · intro j hjp hji
        have hlj : l ≠ j := fun hc => hjp (hc ▸ hlp)
        rw [stackAt, evAt_set_ne hlj, ← stackAt]
        exact huntouched2 j hjp hji
      · refine ⟨by rw [if_pos hcond], ?_, ?_⟩
        · rw [badAt, evAt_set_self hll]
          simp only [decide_eq_true hcond, Bool.or_true]
        · intro j hjl
          rw [badAt, evAt_set_ne (Ne.symm hjl), ← badAt]
          exact hbad2 j
    · refine ⟨evs2, [], ?_, hlen2, fun j => ⟨(hfields2 j).1, (hfields2 j).2.1⟩,
        hmap2, hfresh2, huntouched2, ?_⟩
      · unfold userMerge
        simp only [hEP, hge1, heq2, hlast, hgel, hgei, htsl, htsi, if_neg hcond]
      · refine ⟨by rw [if_neg hcond], ?_, fun j _ => hbad2 j⟩
        rw [hbad2 l]
        simp only [decide_eq_false hcond, Bool.or_false]

theorem shapeEq_set_bad {evs : List Event} {l : Nat} {el : Event}
    (hl : l < evs.length) (hev : evAt evs l = el) :
    ShapeEq evs (evs.set l { el with bad_stack := true })
    ∧ ∀ j, stackAt (evs.set l { el with bad_stack := true }) j = stackAt evs j := by
  refine ⟨⟨List.length_set evs l _, fun j => ?_⟩, fun j => ?_⟩
  · by_cases hlj : l = j
    · subst hlj
      rw [tsAt, tidAt, evAt_set_self hl, tsAt, tidAt, hev]
      exact ⟨rfl, rfl⟩
    · rw [tsAt, tidAt, evAt_set_ne hlj, ← tsAt, ← tidAt]
      exact ⟨rfl, rfl⟩
  · by_cases hlj : l = j
    · subst hlj
      rw [stackAt, evAt_set_self hl, stackAt, hev]
    · rw [stackAt, evAt_set_ne hlj, ← stackAt]

theorem userMerge_shape {evs evs' : List Event} {p frag : List Nat} {i : Nat}
    {extra : List Diag}
    (h : userMerge evs p frag i = some (evs', extra)) :
    ShapeEq evs evs' ∧ StackExt evs evs' := by
  unfold userMerge at h
  cases hEP : extendPending evs p frag with
  | none =>
    simp only [hEP] at h
    exact Option.noConfusion h
  | some evs1 =>
    simp only [hEP] at h
    obtain ⟨hlen1, hfields1, hext1, -⟩ := extendPending_spec hEP
    have hsh1 : ShapeEq evs evs1 := ⟨hlen1, fun j => ⟨(hfields1 j).1, (hfields1 j).2.1⟩⟩
    cases hge : evs1[i]? with
    | none => exact absurd (hge ▸ h) (fun hc => Option.noConfusion hc)
    | some ei1 =>
      simp only [hge] at h
      have hi1 : i < evs1.length := lt_of_getElem?_some hge
      have hev1 : evAt evs1 i = ei1 := evAt_of_getElem? hge
      have hstep : ∀ evs2 : List Event,
          (match ei1.stack with
            | some _ => if i ∈ p then some evs1 else none
            | none => some (evs1.set i { ei1 with stack := some frag })) = some evs2 →
          ShapeEq evs1 evs2 ∧ StackExt evs1 evs2 := by
        intro evs2 h2
        cases hst : ei1.stack with
        | some s =>
          simp only [hst] at h2
          by_cases hmem : i ∈ p
          · simp only [if_pos hmem, Option.some.injEq] at h2
            subst h2
            exact ⟨shapeEq_refl _, stackExt_refl _⟩
          · rw [if_neg hmem] at h2
            exact Option.noConfusion h2
        | none =>
          simp only [hst, Option.some.injEq] at h2
          subst h2
          refine ⟨shapeEq_set_stack hi1 hev1 _, ?_⟩
          intro j w hw
          by_cases hij : i = j
          · subst hij
            rw [stackAt, hev1, hst] at hw
            exact Option.noConfusion hw
          · exact ⟨[], by rw [stackAt, evAt_set_ne hij, ← stackAt, hw, List.append_nil]⟩
      cases h2 : (match ei1.stack with
          | some _ => if i ∈ p then some evs1 else none
          | none => some (evs1.set i { ei1 with stack := some frag })) with
      | none => exact absurd (h2 ▸ h) (fun hc => Option.noConfusion hc)
      | some evs2 =>
        simp only [h2] at h
        obtain ⟨hsh2, hext2⟩ := hstep evs2 h2
        cases hlast : p.getLast? with
        | none =>
          simp only [hlast, Option.some.injEq, Prod.mk.injEq] at h
          obtain ⟨he, -⟩ := h
          subst he
          exact ⟨shapeEq_trans hsh1 hsh2, stackExt_trans hext1 hext2⟩
        | some l =>
          simp only [hlast] at h
          cases hgel : evs2[l]? with
          | none => exact absurd (hgel ▸ h) (fun hc => Option.noConfusion hc)
          | some el =>
            simp only [hgel] at h
            cases hgei : evs2[i]? with
            | none => exact absurd (hgei ▸ h) (fun hc => Option.noConfusion hc)
            | some ei2 =>
              simp only [hgei] at h
              by_cases hcond : el.timestamp < ei2.timestamp
              · simp only [if_pos hcond, Option.some.injEq, Prod.mk.injEq] at h
                obtain ⟨he, -⟩ := h
                subst he
                have hll : l < evs2.length := lt_of_getElem?_some hgel
                have hevl : evAt evs2 l = el := evAt_of_getElem? hgel
                obtain ⟨hsh3, hst3⟩ := shapeEq_set_bad hll hevl
                refine ⟨shapeEq_trans (shapeEq_trans hsh1 hsh2) hsh3, stackExt_trans (stackExt_trans hext1 hext2) ?_⟩
                intro j w hw
                exact ⟨[], by rw [hst3 j, hw, List.append_nil]⟩
              · simp only [if_neg hcond, Option.some.injEq, Prod.mk.injEq] at h
                obtain ⟨he, -⟩ := h
                subst he
                exact ⟨shapeEq_trans hsh1 hsh2, stackExt_trans hext1 hext2⟩

theorem mergeMatch_kernel_some_mem {evs : List Event} {p : List Nat} {d : List Diag}
    {frag : List Nat} {ts_u64 tid cpu i : Nat} {ei : Event} {v : List Nat}
    (hge : evs[i]? = some ei) (hst : ei.stack = some v) (hmem : i ∈ p) :
    mergeMatch evs p none d frag true ts_u64 tid cpu i
      = some (evs.set i { ei with stack := some (v ++ frag) }, p, some i, d) := by
  unfold mergeMatch ambDiag
  simp only [hge, kernelMerge_some_mem hst hmem, if_true]

theorem mergeMatch_kernel_some_notMem {evs : List Event} {p : List Nat} {d : List Diag}
    {frag : List Nat} {ts_u64 tid cpu i : Nat} {ei : Event} {v : List Nat}
    (hge : evs[i]? = some ei) (hst : ei.stack = some v) (hmem : i ∉ p) :
    mergeMatch evs p none d frag true ts_u64 tid cpu i = none := by
  unfold mergeMatch ambDiag
  simp only [hge, kernelMerge_some_notMem hst hmem, if_true]

theorem mergeMatch_kernel_none {evs : List Event} {p : List Nat} {d : List Diag}
    {frag : List Nat} {ts_u64 tid cpu i : Nat} {ei : Event}
    (hge : evs[i]? = some ei) (hst : ei.stack = none) :
    mergeMatch evs p none d frag true ts_u64 tid cpu i
      = some (evs.set i { ei with stack := some frag }, p ++ [i], some i, d) := by
  unfold mergeMatch ambDiag
  simp only [hge, kernelMerge_none hst, if_true]

theorem mergeMatch_user {evs evs' : List Event} {p : List Nat} {d : List Diag}
    {frag : List Nat} {ts_u64 tid cpu i : Nat} {ei : Event} {extra : List Diag}
    (hge : evs[i]? = some ei)
    (hum : userMerge evs p frag i = some (evs', extra)) :
    mergeMatch evs p none d frag false ts_u64 tid cpu i
      = some (evs', [], some i, d ++ extra) := by
  unfold mergeMatch ambDiag
  simp only [hge, hum, Bool.false_eq_true, if_false]

theorem mergeMatch_found {evs : List Event} {p : List Nat}
    {d : List Diag} {frag : List Nat} {endsK : Bool} {ts_u64 tid cpu i first : Nat}
    (hf : first < evs.length) :
    mergeMatch evs p (some first) d frag endsK ts_u64 tid cpu i
      = mergeMatch evs p none
          (d ++ [Diag.moreThanOneEvent first (evAt evs first).name
            (evAt evs first).thread_id (evAt evs first).cpu
            i (evAt evs i).name (evAt evs i).thread_id (evAt evs i).cpu
            ts_u64 tid cpu])
          frag endsK ts_u64 tid cpu i := by
  unfold mergeMatch ambDiag
  cases hge : evs[i]? with
  | none => rfl
  | some ei =>
    simp only [getElem?_of_lt hf, evAt_of_getElem? hge]

theorem mergeMatch_shape {evs evs' : List Event} {p p' : List Nat}
    {found f' : Option Nat} {d d' : List Diag} {frag : List Nat} {endsK : Bool}
    {ts_u64 tid cpu i : Nat}
    (h : mergeMatch evs p found d frag endsK ts_u64 tid cpu i
      = some (evs', p', f', d')) :
    ShapeEq evs evs' ∧ StackExt evs evs' ∧ f' = some i := by
  unfold mergeMatch at h
  cases hge : evs[i]? with
  | none => exact absurd (hge ▸ h) (fun hc => Option.noConfusion hc)
  | some ei =>
    simp only [hge] at h
    cases ha : ambDiag evs found d ts_u64 tid cpu i ei with
    | none => exact absurd (ha ▸ h) (fun hc => Option.noConfusion hc)
    | some d1 =>
      simp only [ha] at h
      cases endsK with
      | true =>
        simp only [if_true] at h
        cases hk : kernelMerge evs p frag i ei with
        | none => exact absurd (hk ▸ h) (fun hc => Option.noConfusion hc)
        | some r =>
          obtain ⟨evs1, p1⟩ := r
          simp only [hk, Option.some.injEq, Prod.mk.injEq] at h
          obtain ⟨he, -, hf, -⟩ := h
          subst he
          obtain ⟨hsh, hext⟩ := kernelMerge_shape hge hk
          exact ⟨hsh, hext, hf.symm⟩
      | false =>
        simp only [Bool.false_eq_true, if_false] at h
        cases hu : userMerge evs p frag i with
        | none => exact absurd (hu ▸ h) (fun hc => Option.noConfusion hc)
        | some r =>
          obtain ⟨evs1, extra⟩ := r
          simp only [hu, Option.some.injEq, Prod.mk.injEq] at h
          obtain ⟨he, -, hf, -⟩ := h
          subst he
          obtain ⟨hsh, hext⟩ := userMerge_shape hu
          exact ⟨hsh, hext, hf.symm⟩

theorem mergeMatch_pendInv {evs evs' : List Event} {p p' : List Nat}
    {found f' : Option Nat} {d d' : List Diag} {frag : List Nat} {endsK : Bool}
    {ts_u64 tid cpu i : Nat}
    (hp : PendInv evs p)
    (h : mergeMatch evs p found d frag endsK ts_u64 tid cpu i
      = some (evs', p', f', d')) :
    PendInv evs' p' := by
  unfold mergeMatch at h
  cases hge : evs[i]? with
  | none => exact absurd (hge ▸ h) (fun hc => Option.noConfusion hc)
  | some ei =>
    simp only [hge] at h
    cases ha : ambDiag evs found d ts_u64 tid cpu i ei with
    | none => exact absurd (ha ▸ h) (fun hc => Option.noConfusion hc)
    | some d1 =>
      simp only [ha] at h
      cases endsK with
      | true =>
        simp only [if_true] at h
        cases hk : kernelMerge evs p frag i ei with
        | none => exact absurd (hk ▸ h) (fun hc => Option.noConfusion hc)
        | some r =>
          obtain ⟨evs1, p1⟩ := r
          simp only [hk, Option.some.injEq, Prod.mk.injEq] at h
          obtain ⟨he, hpe, -, -⟩ := h
          subst he
          subst hpe
          exact kernelMerge_pendInv hge hp hk
      | false =>
        simp only [Bool.false_eq_true, if_false] at h
        cases hu : userMerge evs p frag i with
        | none => exact absurd (hu ▸ h) (fun hc => Option.noConfusion hc)
        | some r =>
          obtain ⟨evs1, extra⟩ := r
          simp only [hu, Option.some.injEq, Prod.mk.injEq] at h
          obtain ⟨-, hpe, -, -⟩ := h
          subst hpe
          exact fun j hj => absurd hj (List.not_mem_nil j)

/-! ### Lemmas about the backward scan -/

theorem matchIndices_congr {evs evs' : List Event} {ts : Int} {tid : Nat}
    (hsh : ShapeEq evs evs') :
    ∀ n, matchIndices evs' ts tid n = matchIndices evs ts tid n := by
  intro n
  induction n with
  | zero => rfl
  | succ i ih =>
    simp only [matchIndices]
    rw [(hsh.2 (i + 1)).1, (hsh.2 (i + 1)).2, ih]

theorem scanLoop_shape :
    ∀ (i : Nat) {evs evs' : List Event} {p p' : List Nat} {f f' : Option Nat}
      {d d' : List Diag} {frag : List Nat} {endsK : Bool} {tsu : Nat} {ts : Int}
      {tid cpu : Nat},
      scanLoop evs p f d frag endsK tsu ts tid cpu i = some (evs', p', f', d') →
      ShapeEq evs evs' ∧ StackExt evs evs' ∧ (PendInv evs p → PendInv evs' p') := by
  intro i
  induction i with
  | zero =>
    intro evs evs' p p' f f' d d' frag endsK tsu ts tid cpu h
    simp only [scanLoop, Option.some.injEq, Prod.mk.injEq] at h
    obtain ⟨he, hpe, -, -⟩ := h
    subst he
    subst hpe
    exact ⟨shapeEq_refl _, stackExt_refl _, fun hp => hp⟩
  | succ n ih =>
    intro evs evs' p p' f f' d d' frag endsK tsu ts tid cpu h
    simp only [scanLoop] at h
    cases hge : evs[n + 1]? with
    | none =>
      rw [hge] at h
      exact Option.noConfusion h
    | some ei =>
      rw [hge] at h
      simp only at h
      by_cases hlt : ei.timestamp < ts
      · rw [if_pos hlt] at h
        simp only [Option.some.injEq, Prod.mk.injEq] at h
        obtain ⟨he, hpe, -, -⟩ := h
        subst he
        subst hpe
        exact ⟨shapeEq_refl _, stackExt_refl _, fun hp => hp⟩
      · rw [if_neg hlt] at h
        by_cases hm : ei.timestamp = ts ∧ ei.thread_id = tid
        · rw [if_pos hm] at h
          cases hmm : mergeMatch evs p f d frag endsK tsu tid cpu (n + 1) with
          | none =>
            rw [hmm] at h
            exact Option.noConfusion h
          | some r =>
            obtain ⟨e1, p1, f1, d1⟩ := r
            rw [hmm] at h
            simp only at h
            obtain ⟨hsh1, hext1, -⟩ := mergeMatch_shape hmm
            obtain ⟨hsh2, hext2, hpi2⟩ := ih h
            refine ⟨shapeEq_trans hsh1 hsh2, stackExt_trans hext1 hext2, fun hp => hpi2 ?_⟩
            exact mergeMatch_pendInv hp hmm
        · rw [if_neg hm] at h
          exact ih h

theorem scanLoop_eq_applyMatches :
    ∀ (i : Nat) {evs : List Event} (p : List Nat) (f : Option Nat) (d : List Diag)
      {frag : List Nat} {endsK : Bool} {tsu : Nat} {ts : Int} {tid cpu : Nat},
      i < evs.length →
      scanLoop evs p f d frag endsK tsu ts tid cpu i
        = applyMatches evs p f d frag endsK tsu tid cpu (matchIndices evs ts tid i) := by
  intro i
  induction i with
  | zero => intros; rfl
  | succ n ih =>
    intro evs p f d frag endsK tsu ts tid cpu hlen
    have hge : evs[n + 1]? = some (evAt evs (n + 1)) := getElem?_of_lt hlen
    simp only [scanLoop, matchIndices, hge]
    by_cases hlt : tsAt evs (n + 1) < ts
    · rw [if_pos hlt]
      have hlt' : (evAt evs (n + 1)).timestamp < ts := hlt
      rw [if_pos hlt']
      rfl
    · rw [if_neg hlt]
      have hlt' : ¬(evAt evs (n + 1)).timestamp < ts := hlt
      rw [if_neg hlt']
      by_cases hm : tsAt evs (n + 1) = ts ∧ tidAt evs (n + 1) = tid
      · rw [if_pos hm]
        have hm' : (evAt evs (n + 1)).timestamp = ts ∧ (evAt evs (n + 1)).thread_id = tid := hm
        rw [if_pos hm']
        simp only [applyMatches]
        cases hmm : mergeMatch evs p f d frag endsK tsu tid cpu (n + 1) with
        | none => rfl
        | some r =>
          obtain ⟨e1, p1, f1, d1⟩ := r
          simp only
          obtain ⟨hsh1, -, -⟩ := mergeMatch_shape hmm
          have hlen1 : n < e1.length := by
            rw [hsh1.1]
            exact Nat.lt_of_succ_lt hlen
          rw [ih p1 f1 d1 hlen1, matchIndices_congr hsh1]
      · rw [if_neg hm]
        have hm' : ¬((evAt evs (n + 1)).timestamp = ts ∧ (evAt evs (n + 1)).thread_id = tid) := hm
        rw [if_neg hm']
        exact ih p f d (Nat.lt_of_succ_lt hlen)

/-! ### Lemmas about the payload decode -/

theorem decodeStack_short : ∀ {bs : List Nat}, bs.length < 8 → decodeStack bs = [] := by
  intro bs h
  rcases bs with _ | ⟨b0, _ | ⟨b1, _ | ⟨b2, _ | ⟨b3, _ | ⟨b4, _ | ⟨b5, _ | ⟨b6, _ | ⟨b7, rest⟩⟩⟩⟩⟩⟩⟩⟩
  · rfl
  · rfl
  · rfl
  · rfl
  · rfl
  · rfl
  · rfl
  · rfl
  · simp only [List.length_cons] at h
    omega

theorem decodeStack_length : ∀ bs : List Nat, (decodeStack bs).length = bs.length / 8 := by
  intro bs
  induction bs using decodeStack.induct with
  | case1 b0 b1 b2 b3 b4 b5 b6 b7 rest ih =>
    simp only [decodeStack, List.length_cons]
    omega
  | case2 t hne =>
    rcases t with _ | ⟨b0, _ | ⟨b1, _ | ⟨b2, _ | ⟨b3, _ | ⟨b4, _ | ⟨b5, _ | ⟨b6, _ | ⟨b7, rest⟩⟩⟩⟩⟩⟩⟩⟩
    · rfl
    · simp [decodeStack]
    · simp [decodeStack]
    · simp [decodeStack]
    · simp [decodeStack]
    · simp [decodeStack]
    · simp [decodeStack]
    · simp [decodeStack]
    · exact (hne b0 b1 b2 b3 b4 b5 b6 b7 rest rfl).elim

theorem decodeStack_append_rem :
    ∀ {bs : List Nat}, bs.length % 8 = 0 →
      ∀ {rem : List Nat}, rem.length < 8 → decodeStack (bs ++ rem) = decodeStack bs := by
  intro bs
  induction bs using decodeStack.induct with
  | case1 b0 b1 b2 b3 b4 b5 b6 b7 rest ih =>
    intro hmod rem hrem
    simp only [List.length_cons] at hmod
    have hmod' : rest.length % 8 = 0 := by omega
    simp only [List.cons_append, decodeStack, List.append_eq]
    rw [ih hmod' hrem]
  | case2 t hne =>
    intro hmod rem hrem
    rcases t with _ | ⟨b0, _ | ⟨b1, _ | ⟨b2, _ | ⟨b3, _ | ⟨b4, _ | ⟨b5, _ | ⟨b6, _ | ⟨b7, rest⟩⟩⟩⟩⟩⟩⟩⟩
    · rw [List.nil_append, decodeStack_short hrem]
      rfl
    · simp only [List.length_cons, List.length_nil] at hmod
      omega
    · simp only [List.length_cons, List.length_nil] at hmod
      omega
    · simp only [List.length_cons, List.length_nil] at hmod
      omega
    · simp only [List.length_cons, List.length_nil] at hmod
      omega
    · simp only [List.length_cons, List.length_nil] at hmod
      omega
    · simp only [List.length_cons, List.length_nil] at hmod
      omega
    · simp only [List.length_cons, List.length_nil] at hmod
      omega
    · exact (hne b0 b1 b2 b3 b4 b5 b6 b7 rest rfl).elim

theorem processFragment_nil (ths : Threads) (a b tsu cpu : Nat) (payload : List Nat) :
    processFragment [] ths a b tsu cpu payload = none := by
  unfold processFragment
  cases h : (decodeStack payload).getLast? with
  | none => simp only [h]
  | some la => simp only [h, List.length_nil]

theorem processStackRecord_nil (ths : Threads) (a b tsu cpu : Nat) (payload : List Nat)
    (hTs : Int) (hTid : Nat) :
    processStackRecord [] ths a b tsu cpu payload hTs hTid = none := by
  unfold processStackRecord
  rw [processFragment_nil]

theorem processStackRecord_short {payload : List Nat} (hp : payload.length < 8)
    (evs : List Event) (ths : Threads) (a b tsu cpu : Nat) (hTs : Int) (hTid : Nat) :
    processStackRecord evs ths a b tsu cpu payload hTs hTid = none := by
  unfold processStackRecord processFragment
  simp only [decodeStack_short hp, List.getLast?_nil]

/-! ### The claims -/

/-- C1 (amended): the backward scan walks the Timeline downward from the start
index; it terminates at the first examined index whose timestamp is strictly
below the fragment timestamp, skips without terminating every examined index
whose timestamp is strictly greater, and matches exactly the examined indices
whose timestamp and thread id both equal the fragment's — but it examines only
the indices down to and including index 1: the loop condition `i > 0` stops
the scan before index 0, which is never examined. The scan is equivalent to
folding the per-match merge over exactly those match indices. On an empty
Timeline the start-index computation `events.len() - 1` underflows and the
record's processing aborts instead of scanning. -/
theorem c1_backward_scan :
    (∀ (evs : List Event) (p : List Nat) (f : Option Nat) (d : List Diag)
       (frag : List Nat) (endsK : Bool) (tsu : Nat) (ts : Int) (tid cpu i : Nat),
       i < evs.length →
       scanLoop evs p f d frag endsK tsu ts tid cpu i
         = applyMatches evs p f d frag endsK tsu tid cpu (matchIndices evs ts tid i))
    ∧ (∀ (ths : Threads) (a b tsu cpu : Nat) (payload : List Nat)
         (hTs : Int) (hTid : Nat),
       processStackRecord [] ths a b tsu cpu payload hTs hTid = none) :=
  ⟨fun evs p f d frag endsK tsu ts tid cpu i h =>
    scanLoop_eq_applyMatches i p f d h,
   fun ths a b tsu cpu payload hTs hTid =>
    processStackRecord_nil ths a b tsu cpu payload hTs hTid⟩

/-- C1 witness: the scan–fold equivalence evaluated on a concrete two-entry
Timeline, and a concrete empty-Timeline record that aborts. -/
theorem c1_backward_scan_witness :
    (1 < ([⟨"X", 1, 9, none, 0, false⟩, ⟨"E", 100, 5, none, 0, false⟩] : List Event).length)
    ∧ scanLoop [⟨"X", 1, 9, none, 0, false⟩, ⟨"E", 100, 5, none, 0, false⟩]
        [] none [] [7] false 100 (u64_as_i64 100) 5 0 1
      = applyMatches [⟨"X", 1, 9, none, 0, false⟩, ⟨"E", 100, 5, none, 0, false⟩]
          [] none [] [7] false 100 5 0
          (matchIndices [⟨"X", 1, 9, none, 0, false⟩, ⟨"E", 100, 5, none, 0, false⟩]
            (u64_as_i64 100) 5 1)
    ∧ processStackRecord [] emptyThreads 5 1 100 0 [1, 2, 3] 7 9 = none :=
  ⟨by decide,
   c1_backward_scan.1 _ _ _ _ _ _ _ _ _ _ _ (by decide),
   c1_backward_scan.2 emptyThreads 5 1 100 0 [1, 2, 3] 7 9⟩

/-- C1 counterexample: a single-entry Timeline whose entry 0 has exactly the
fragment's timestamp and thread id. The claim says the scan examines index 0
and matches it; the code's scan (`while i > 0`) never examines index 0, finds
no match, reports "no matching event" and attaches nothing. -/
theorem c1_counterexample :
    tsAt [⟨"SampleProf", 100, 5, none, 0, false⟩] 0 = u64_as_i64 100
    ∧ tidAt [⟨"SampleProf", 100, 5, none, 0, false⟩] 0 = 5
    ∧ recResultEvents (processFragment [⟨"SampleProf", 100, 5, none, 0, false⟩]
        emptyThreads 5 1 100 0 [1, 0, 0, 0, 0, 0, 0, 0])
      = some [⟨"SampleProf", 100, 5, none, 0, false⟩]
    ∧ recResultDiags (processFragment [⟨"SampleProf", 100, 5, none, 0, false⟩]
        emptyThreads 5 1 100 0 [1, 0, 0, 0, 0, 0, 0, 0])
      = some [Diag.noMatchingEvent] :=
  ⟨by decide, by decide, by rfl, by rfl⟩

/-- C2 (confirmed): for a matched index of a kernel-ending fragment — if the
entry's stack is already attached, the index must be registered in the
thread's pending list (otherwise the `assert!` fails fatally) and the fragment
is appended to the existing stack; if no stack is attached, the stack becomes
the fragment and the index is registered. Consequently a stack attached by two
kernel-ending fragments is their concatenation in arrival order. -/
theorem c2_kernel_fragment {evs : List Event} {p : List Nat} {d : List Diag}
    {frag : List Nat} {tsu tid cpu i : Nat} (hi : i < evs.length) :
    (∀ v, stackAt evs i = some v → i ∈ p →
      mergeMatch evs p none d frag true tsu tid cpu i
        = some (evs.set i { evAt evs i with stack := some (v ++ frag) }, p, some i, d))
    ∧ (∀ v, stackAt evs i = some v → i ∉ p →
      mergeMatch evs p none d frag true tsu tid cpu i = none)
    ∧ (stackAt evs i = none →
      mergeMatch evs p none d frag true tsu tid cpu i
        = some (evs.set i { evAt evs i with stack := some frag }, p ++ [i], some i, d))
    ∧ (stackAt evs i = none → ∀ frag2,
      ∃ evs1, mergeMatch evs p none d frag true tsu tid cpu i
          = some (evs1, p ++ [i], some i, d)
        ∧ stackAt evs1 i = some frag
        ∧ ∃ evs2, mergeMatch evs1 (p ++ [i]) none d frag2 true tsu tid cpu i
            = some (evs2, p ++ [i], some i, d)
          ∧ stackAt evs2 i = some (frag ++ frag2)) := by
  have hge : evs[i]? = some (evAt evs i) := getElem?_of_lt hi
  refine ⟨?_, ?_, ?_, ?_⟩
  · intro v hv hmem
    exact mergeMatch_kernel_some_mem hge hv hmem
  · intro v hv hmem
    exact mergeMatch_kernel_some_notMem hge hv hmem
  · intro hn
    exact mergeMatch_kernel_none hge hn
  · intro hn frag2
    have h1 : mergeMatch evs p none d frag true tsu tid cpu i
        = some (evs.set i { evAt evs i with stack := some frag }, p ++ [i], some i, d) :=
      mergeMatch_kernel_none hge hn
    have hi1 : i < (evs.set i { evAt evs i with stack := some frag }).length := by
      rw [List.length_set]
      exact hi
    have hev1 : evAt (evs.set i { evAt evs i with stack := some frag }) i
        = { evAt evs i with stack := some frag } :=
      evAt_set_self hi _
    have hs1 : stackAt (evs.set i { evAt evs i with stack := some frag }) i = some frag := by
      rw [stackAt, hev1]
    have hmem1 : i ∈ p ++ [i] := List.mem_append_right p (List.mem_singleton_self i)
    refine ⟨evs.set i { evAt evs i with stack := some frag }, h1, hs1, ?_⟩
    refine ⟨(evs.set i { evAt evs i with stack := some frag }).set i
        { evAt (evs.set i { evAt evs i with stack := some frag }) i
          with stack := some (frag ++ frag2) }, ?_, ?_⟩
    · exact mergeMatch_kernel_some_mem (getElem?_of_lt hi1) hs1 hmem1
    · rw [stackAt, evAt_set_self hi1]

/-- C2 witness: the three branches evaluated on concrete one-entry Timelines:
append-to-existing for a registered index, fatal assert for an unregistered
index, and fresh attach plus registration. -/
theorem c2_kernel_fragment_witness :
    (0 < ([⟨"E", 100, 5, some [7], 0, false⟩] : List Event).length)
    ∧ mergeMatch [⟨"E", 100, 5, some [7], 0, false⟩] [0] none [] [9] true 100 5 0 0
      = some (([⟨"E", 100, 5, some [7], 0, false⟩].set 0
          { evAt [⟨"E", 100, 5, some [7], 0, false⟩] 0 with stack := some ([7] ++ [9]) }),
          [0], some 0, [])
    ∧ mergeMatch [⟨"E", 100, 5, some [7], 0, false⟩] [] none [] [9] true 100 5 0 0 = none
    ∧ mergeMatch [⟨"E", 100, 5, none, 0, false⟩] [] none [] [9] true 100 5 0 0
      = some (([⟨"E", 100, 5, none, 0, false⟩].set 0
          { evAt [⟨"E", 100, 5, none, 0, false⟩] 0 with stack := some [9] }),
          [] ++ [0], some 0, []) :=
  ⟨by decide,
   (c2_kernel_fragment (by decide)).1 [7] rfl (by decide),
   (c2_kernel_fragment (by decide)).2.1 [7] rfl (by decide),
   (c2_kernel_fragment (by decide)).2.2.1 rfl⟩

/-- C5 (amended): a second or later match during one scan emits the ambiguity
diagnostic identifying the previously found match and the current one together
with the fragment's timestamp, thread and cpu — and then the merge rules are
applied to this match exactly as to a first match: processing applies the
per-match merge to every match, not only to the newest one. -/
theorem c5_ambiguity {evs : List Event} {p : List Nat} {d : List Diag}
    {frag : List Nat} {endsK : Bool} {tsu tid cpu i first : Nat}
    (hf : first < evs.length) :
    mergeMatch evs p (some first) d frag endsK tsu tid cpu i
      = mergeMatch evs p none
          (d ++ [Diag.moreThanOneEvent first (evAt evs first).name
            (evAt evs first).thread_id (evAt evs first).cpu
            i (evAt evs i).name (evAt evs i).thread_id (evAt evs i).cpu
            tsu tid cpu])
          frag endsK tsu tid cpu i :=
  mergeMatch_found hf

/-- C5 witness: the diagnostic-then-merge equality evaluated at a concrete
second match. -/
theorem c5_ambiguity_witness :
    (1 < ([⟨"X", 1, 9, none, 0, false⟩, ⟨"E", 100, 5, none, 0, false⟩] : List Event).length)
    ∧ mergeMatch [⟨"X", 1, 9, none, 0, false⟩, ⟨"E", 100, 5, none, 0, false⟩]
        [] (some 1) [] [9] true 100 5 0 1
      = mergeMatch [⟨"X", 1, 9, none, 0, false⟩, ⟨"E", 100, 5, none, 0, false⟩]
          [] none
          ([] ++ [Diag.moreThanOneEvent 1
            (evAt [⟨"X", 1, 9, none, 0, false⟩, ⟨"E", 100, 5, none, 0, false⟩] 1).name
            (evAt [⟨"X", 1, 9, none, 0, false⟩, ⟨"E", 100, 5, none, 0, false⟩] 1).thread_id
            (evAt [⟨"X", 1, 9, none, 0, false⟩, ⟨"E", 100, 5, none, 0, false⟩] 1).cpu
            1
            (evAt [⟨"X", 1, 9, none, 0, false⟩, ⟨"E", 100, 5, none, 0, false⟩] 1).name
            (evAt [⟨"X", 1, 9, none, 0, false⟩, ⟨"E", 100, 5, none, 0, false⟩] 1).thread_id
            (evAt [⟨"X", 1, 9, none, 0, false⟩, ⟨"E", 100, 5, none, 0, false⟩] 1).cpu
            100 5 0])
          [9] true 100 5 0 1 :=
  ⟨by decide, c5_ambiguity (by decide)⟩

/-- C5 counterexample: a kernel fragment matching two Timeline entries (indices
2 and 1). The claim says the merge rules take effect only for the newest
(highest-index) match; the code applies the merge to both matches — both
entries end with the fragment attached and both are registered in the pending
list, and the final `found_event` is the lower index 1. -/
theorem c5_counterexample :
    scanLoop [⟨"X", 1, 9, none, 0, false⟩, ⟨"E", 100, 5, none, 0, false⟩,
        ⟨"E", 100, 5, none, 0, false⟩] [] none [] [0xFFFF000000000001] true 100
        (u64_as_i64 100) 5 0 2
      = some ([⟨"X", 1, 9, none, 0, false⟩,
          ⟨"E", 100, 5, some [0xFFFF000000000001], 0, false⟩,
          ⟨"E", 100, 5, some [0xFFFF000000000001], 0, false⟩], [2, 1], some 1,
          [Diag.moreThanOneEvent 2 "E" 5 0 1 "E" 5 0 100 5 0])
    ∧ stackAt [⟨"X", 1, 9, none, 0, false⟩,
        ⟨"E", 100, 5, some [0xFFFF000000000001], 0, false⟩,
        ⟨"E", 100, 5, some [0xFFFF000000000001], 0, false⟩] 1
      = some [0xFFFF000000000001] :=
  ⟨by rfl, by rfl⟩

/-- C9 (amended): a stack-fragment payload whose byte length is not a multiple
of the 8-byte address width does not fail to decode and is not skipped: the
decode keeps every complete 8-byte chunk (`bytes.length / 8` addresses) and
silently drops the remainder, and the record is then processed normally with
those addresses. A payload shorter than 8 bytes decodes to the empty list. -/
theorem c9_decode_truncates :
    (∀ bs : List Nat, (decodeStack bs).length = bs.length / 8)
    ∧ (∀ bs rem : List Nat, bs.length % 8 = 0 → rem.length < 8 →
        decodeStack (bs ++ rem) = decodeStack bs)
    ∧ (∀ bs : List Nat, bs.length < 8 → decodeStack bs = []) :=
  ⟨decodeStack_length,
   fun _ _ h1 h2 => decodeStack_append_rem h1 h2,
   fun _ h => decodeStack_short h⟩

/-- C9 witness: the truncating decode evaluated on a concrete 9-byte payload. -/
theorem c9_decode_truncates_witness :
    (decodeStack [1, 0, 0, 0, 0, 0, 0, 0, 42]).length
      = ([1, 0, 0, 0, 0, 0, 0, 0, 42] : List Nat).length / 8
    ∧ (([1, 0, 0, 0, 0, 0, 0, 0] : List Nat).length % 8 = 0)
    ∧ (([42] : List Nat).length < 8)
    ∧ decodeStack ([1, 0, 0, 0, 0, 0, 0, 0] ++ [42]) = decodeStack [1, 0, 0, 0, 0, 0, 0, 0]
    ∧ (([1, 2, 3] : List Nat).length < 8)
    ∧ decodeStack [1, 2, 3] = [] :=
  ⟨c9_decode_truncates.1 _,
   by decide, by decide,
   c9_decode_truncates.2.1 _ _ (by decide) (by decide),
   by decide,
   c9_decode_truncates.2.2 _ (by decide)⟩

/-- C9 counterexample: a 9-byte payload (not a multiple of 8). The claim says
the decode fails, no addresses are decoded, and nothing is mutated; the code
decodes one address from the first 8 bytes, drops the ninth byte, and the
correlation attaches a stack to the matched Timeline entry. -/
theorem c9_counterexample :
    (([1, 0, 0, 0, 0, 0, 0, 0, 42] : List Nat).length % 8 ≠ 0)
    ∧ decodeStack [1, 0, 0, 0, 0, 0, 0, 0, 42] = [1]
    ∧ recResultEvents (processFragment
        [⟨"X", 1, 9, none, 0, false⟩, ⟨"E", 100, 5, none, 0, false⟩]
        emptyThreads 5 1 100 0 [1, 0, 0, 0, 0, 0, 0, 0, 42])
      = some [⟨"X", 1, 9, none, 0, false⟩, ⟨"E", 100, 5, some [1], 0, false⟩] :=
  ⟨by decide, by rfl, by rfl⟩

/-- C10 (confirmed): a stack-fragment payload shorter than 8 bytes (including
the empty payload, whose length 0 is a multiple of the address width) decodes
to an empty address list, and the correlator panics at the
`stack.last().unwrap()` of the kernel-address classification — the whole
record's processing aborts (modelled as `none`) instead of skipping the record
with a diagnostic. -/
theorem c10_empty_decode_panics {payload : List Nat} (hp : payload.length < 8)
    (evs : List Event) (ths : Threads) (a b tsu cpu : Nat) (hTs : Int) (hTid : Nat) :
    decodeStack payload = []
    ∧ processStackRecord evs ths a b tsu cpu payload hTs hTid = none :=
  ⟨decodeStack_short hp, processStackRecord_short hp evs ths a b tsu cpu hTs hTid⟩

/-- C10 witness: a concrete 3-byte payload aborts processing of the record on a
non-empty Timeline. -/
theorem c10_empty_decode_panics_witness :
    (([1, 2, 3] : List Nat).length < 8)
    ∧ decodeStack [1, 2, 3] = []
    ∧ processStackRecord [⟨"E", 100, 5, none, 0, false⟩] emptyThreads 5 1 100 0
        [1, 2, 3] 7 9 = none :=
  ⟨by decide,
   (c10_empty_decode_panics (by decide) [⟨"E", 100, 5, none, 0, false⟩]
     emptyThreads 5 1 100 0 7 9).1,
   (c10_empty_decode_panics (by decide) [⟨"E", 100, 5, none, 0, false⟩]
     emptyThreads 5 1 100 0 7 9).2⟩

/-- C3 (confirmed): a user-mode fragment resolving a matched index first
appends its addresses to every Timeline entry registered in the thread's
pending list (however many are pending), then sets the matched entry's stack
to the fragment if it had none (if it already had one, the entry must be
registered as kernel-pending, else the `assert!` is fatal), and leaves every
other entry's stack unchanged; the pending list is cleared in full. -/
theorem c3_user_fragment {evs : List Event} {p : List Nat} {d : List Diag}
    {frag : List Nat} {tsu tid cpu i : Nat}
    (hi : i < evs.length) (hnd : p.Nodup)
    (hp : ∀ j ∈ p, j < evs.length ∧ (stackAt evs j).isSome)
    (hassert : (stackAt evs i).isSome → i ∈ p) :
    ∃ evs' d',
      mergeMatch evs p none d frag false tsu tid cpu i = some (evs', [], some i, d ++ d')
      ∧ (∀ j ∈ p, stackAt evs' j = (stackAt evs j).map (fun v => v ++ frag))
      ∧ (i ∉ p → stackAt evs' i = some frag)
      ∧ (∀ j, j ∉ p → j ≠ i → stackAt evs' j = stackAt evs j) := by
  obtain ⟨evs', extra, hum, hlen, hfields, hmap, hfresh, huntouched, hbad⟩ :=
    userMerge_spec hi hp hassert
  exact ⟨evs', extra, mergeMatch_user (getElem?_of_lt hi) hum, hmap hnd,
    hfresh, huntouched⟩

/-- C3 witness: a concrete user fragment resolving index 2 while index 1 is
kernel-pending. -/
theorem c3_user_fragment_witness :
    (2 < ([⟨"X", 1, 9, none, 0, false⟩, ⟨"K", 50, 5, some [70], 0, false⟩,
        ⟨"E", 100, 5, none, 0, false⟩] : List Event).length)
    ∧ ([1] : List Nat).Nodup
    ∧ (∀ j ∈ ([1] : List Nat),
        j < ([⟨"X", 1, 9, none, 0, false⟩, ⟨"K", 50, 5, some [70], 0, false⟩,
          ⟨"E", 100, 5, none, 0, false⟩] : List Event).length
        ∧ (stackAt [⟨"X", 1, 9, none, 0, false⟩, ⟨"K", 50, 5, some [70], 0, false⟩,
            ⟨"E", 100, 5, none, 0, false⟩] j).isSome)
    ∧ ((stackAt [⟨"X", 1, 9, none, 0, false⟩, ⟨"K", 50, 5, some [70], 0, false⟩,
        ⟨"E", 100, 5, none, 0, false⟩] 2).isSome → 2 ∈ ([1] : List Nat))
    ∧ (∃ evs' d',
        mergeMatch [⟨"X", 1, 9, none, 0, false⟩, ⟨"K", 50, 5, some [70], 0, false⟩,
          ⟨"E", 100, 5, none, 0, false⟩] [1] none [] [9] false 100 5 0 2
          = some (evs', [], some 2, [] ++ d')
        ∧ (∀ j ∈ ([1] : List Nat),
            stackAt evs' j
              = (stackAt [⟨"X", 1, 9, none, 0, false⟩, ⟨"K", 50, 5, some [70], 0, false⟩,
                  ⟨"E", 100, 5, none, 0, false⟩] j).map (fun v => v ++ [9]))
        ∧ (2 ∉ ([1] : List Nat) → stackAt evs' 2 = some [9])
        ∧ (∀ j, j ∉ ([1] : List Nat) → j ≠ 2 →
            stackAt evs' j
              = stackAt [⟨"X", 1, 9, none, 0, false⟩, ⟨"K", 50, 5, some [70], 0, false⟩,
                  ⟨"E", 100, 5, none, 0, false⟩] j)) :=
  ⟨by decide, by decide, by decide, by decide,
   c3_user_fragment (by decide) (by decide) (by decide) (by decide)⟩

/-- C4 (confirmed): when a user-mode fragment resolves matched index `i` and
the pending list is non-empty with last index `l`, the entry at `l` is marked
`bad_stack` (with the missing-continuation diagnostic) exactly when its
timestamp is strictly below the matched entry's — on equal timestamps nothing
is flagged — and no entry other than `l` has its `bad_stack` changed. -/
theorem c4_bad_stack_flag {evs : List Event} {p : List Nat} {d : List Diag}
    {frag : List Nat} {tsu tid cpu i l : Nat}
    (hi : i < evs.length)
    (hp : ∀ j ∈ p, j < evs.length ∧ (stackAt evs j).isSome)
    (hassert : (stackAt evs i).isSome → i ∈ p)
    (hl : p.getLast? = some l) :
    ∃ evs',
      mergeMatch evs p none d frag false tsu tid cpu i
        = some (evs', [], some i,
            d ++ (if tsAt evs l < tsAt evs i then
              [Diag.missingUserspaceStack (tsAt evs l) (tsAt evs i)] else []))
      ∧ badAt evs' l = (badAt evs l || decide (tsAt evs l < tsAt evs i))
      ∧ (∀ j, j ≠ l → badAt evs' j = badAt evs j) := by
  obtain ⟨evs', extra, hum, hlen, hfields, hmap, hfresh, huntouched, hbad⟩ :=
    userMerge_spec hi hp hassert
  simp only [hl] at hbad
  obtain ⟨hextra, hbadl, hbadother⟩ := hbad
  subst hextra
  exact ⟨evs', mergeMatch_user (getElem?_of_lt hi) hum, hbadl, hbadother⟩

/-- C4 witness: a concrete resolution with a pending entry at an earlier
timestamp (flag set) — hypotheses discharged at the input of the theorem. -/
theorem c4_bad_stack_flag_witness :
    (2 < ([⟨"X", 1, 9, none, 0, false⟩, ⟨"K", 50, 5, some [70], 0, false⟩,
        ⟨"E", 100, 5, none, 0, false⟩] : List Event).length)
    ∧ (∀ j ∈ ([1] : List Nat),
        j < ([⟨"X", 1, 9, none, 0, false⟩, ⟨"K", 50, 5, some [70], 0, false⟩,
          ⟨"E", 100, 5, none, 0, false⟩] : List Event).length
        ∧ (stackAt [⟨"X", 1, 9, none, 0, false⟩, ⟨"K", 50, 5, some [70], 0, false⟩,
            ⟨"E", 100, 5, none, 0, false⟩] j).isSome)
    ∧ ((stackAt [⟨"X", 1, 9, none, 0, false⟩, ⟨"K", 50, 5, some [70], 0, false⟩,
        ⟨"E", 100, 5, none, 0, false⟩] 2).isSome → 2 ∈ ([1] : List Nat))
    ∧ (([1] : List Nat).getLast? = some 1)
    ∧ (∃ evs',
        mergeMatch [⟨"X", 1, 9, none, 0, false⟩, ⟨"K", 50, 5, some [70], 0, false⟩,
          ⟨"E", 100, 5, none, 0, false⟩] [1] none [] [9] false 100 5 0 2
          = some (evs', [], some 2,
              [] ++ (if tsAt [⟨"X", 1, 9, none, 0, false⟩,
                  ⟨"K", 50, 5, some [70], 0, false⟩, ⟨"E", 100, 5, none, 0, false⟩] 1
                  < tsAt [⟨"X", 1, 9, none, 0, false⟩, ⟨"K", 50, 5, some [70], 0, false⟩,
                  ⟨"E", 100, 5, none, 0, false⟩] 2 then
                [Diag.missingUserspaceStack
                  (tsAt [⟨"X", 1, 9, none, 0, false⟩, ⟨"K", 50, 5, some [70], 0, false⟩,
                    ⟨"E", 100, 5, none, 0, false⟩] 1)
                  (tsAt [⟨"X", 1, 9, none, 0, false⟩, ⟨"K", 50, 5, some [70], 0, false⟩,
                    ⟨"E", 100, 5, none, 0, false⟩] 2)] else []))
        ∧ badAt evs' 1
            = (badAt [⟨"X", 1, 9, none, 0, false⟩, ⟨"K", 50, 5, some [70], 0, false⟩,
                ⟨"E", 100, 5, none, 0, false⟩] 1
              || decide (tsAt [⟨"X", 1, 9, none, 0, false⟩,
                  ⟨"K", 50, 5, some [70], 0, false⟩, ⟨"E", 100, 5, none, 0, false⟩] 1
                < tsAt [⟨"X", 1, 9, none, 0, false⟩, ⟨"K", 50, 5, some [70], 0, false⟩,
                  ⟨"E", 100, 5, none, 0, false⟩] 2))
        ∧ (∀ j, j ≠ 1 →
            badAt evs' j
              = badAt [⟨"X", 1, 9, none, 0, false⟩, ⟨"K", 50, 5, some [70], 0, false⟩,
                  ⟨"E", 100, 5, none, 0, false⟩] j)) :=
  ⟨by decide, by decide, by decide, by decide,
   c4_bad_stack_flag (by decide) (by decide) (by decide) (by decide)⟩

/-! ### Lemmas about the whole record processing -/

theorem pendingOf_setThread_self (ths : Threads) (t : Nat) (st : ThreadState) :
    pendingOf (setThread ths t st) t = st.events_with_unfinished_kernel_stacks := by
  unfold pendingOf setThread
  rw [if_pos rfl]

theorem pendingOf_setThread_ne (ths : Threads) {t t' : Nat} (h : t' ≠ t)
    (st : ThreadState) :
    pendingOf (setThread ths t st) t' = pendingOf ths t' := by
  unfold pendingOf setThread
  rw [if_neg h]

theorem processFragment_some_elim {evs : List Event} {ths : Threads}
    {a b tsu cpu : Nat} {payload : List Nat} {evs1 : List Event} {ths1 : Threads}
    {ds1 : List Diag}
    (h : processFragment evs ths a b tsu cpu payload = some (evs1, ths1, ds1)) :
    ∃ n la p' f' d',
      evs.length = n + 1
      ∧ (decodeStack payload).getLast? = some la
      ∧ scanLoop evs (pendingOf ths a) none [] (decodeStack payload)
          (is_kernel_address la 8) tsu (u64_as_i64 tsu) a cpu n
          = some (evs1, p', f', d')
      ∧ (∀ t, t ≠ a → pendingOf ths1 t = pendingOf ths t)
      ∧ pendingOf ths1 a = p'
      ∧ ds1 = (if f'.isNone then d' ++ [Diag.noMatchingEvent] else d') := by
  unfold processFragment at h
  cases hla : (decodeStack payload).getLast? with
  | none =>
    simp only [hla] at h
    exact Option.noConfusion h
  | some la =>
    simp only [hla] at h
    cases hlen : evs.length with
    | zero =>
      simp only [hlen] at h
      exact Option.noConfusion h
    | succ n =>
      simp only [hlen] at h
      cases hth : ths a with
      | none =>
        simp only [hth] at h
        have hpo : pendingOf ths a = [] := by unfold pendingOf; rw [hth]
        cases hscan : scanLoop evs [] none [] (decodeStack payload)
            (is_kernel_address la 8) tsu (u64_as_i64 tsu) a cpu n with
        | none =>
          rw [ThreadState.new] at h
          simp only [hscan] at h
          exact Option.noConfusion h
        | some r =>
          obtain ⟨e', p', f', d'⟩ := r
          rw [ThreadState.new] at h
          simp only [hscan, Option.some.injEq, Prod.mk.injEq] at h
          obtain ⟨he, hthr, hds⟩ := h
          subst he
          refine ⟨n, la, p', f', d', rfl, rfl, by rw [hpo]; exact hscan, ?_, ?_, hds.symm⟩
          · intro t hta
            rw [← hthr, pendingOf_setThread_ne ths hta]
          · rw [← hthr, pendingOf_setThread_self]
      | some t0 =>
        simp only [hth] at h
        have hpo : pendingOf ths a = t0.events_with_unfinished_kernel_stacks := by
          unfold pendingOf
          rw [hth]
        cases hscan : scanLoop evs t0.events_with_unfinished_kernel_stacks none []
            (decodeStack payload) (is_kernel_address la 8) tsu (u64_as_i64 tsu)
            a cpu n with
        | none =>
          simp only [hscan] at h
          exact Option.noConfusion h
        | some r =>
          obtain ⟨e', p', f', d'⟩ := r
          simp only [hscan, Option.some.injEq, Prod.mk.injEq] at h
          obtain ⟨he, hthr, hds⟩ := h
          subst he
          refine ⟨n, la, p', f', d', rfl, rfl, by rw [hpo]; exact hscan, ?_, ?_, hds.symm⟩
          · intro t hta
            rw [← hthr, pendingOf_setThread_ne ths hta]
          · rw [← hthr, pendingOf_setThread_self]

/-- C6 (confirmed): over the processing of one stack-fragment record, an
already-attached stack is only ever extended: if an entry's stack is `some v`
before the record, it is `some (v ++ w)` for some (possibly empty) suffix `w`
after it — never replaced by a different sequence, truncated, or reset. -/
theorem c6_stack_monotone {evs : List Event} {ths : Threads} {a b tsu cpu : Nat}
    {payload : List Nat} {hTs : Int} {hTid : Nat} {evs' : List Event}
    {ths' : Threads} {ds : List Diag} {j : Nat} {v : List Nat}
    (h : processStackRecord evs ths a b tsu cpu payload hTs hTid
      = some (evs', ths', ds))
    (hv : stackAt evs j = some v) :
    ∃ w, stackAt evs' j = some (v ++ w) := by
  unfold processStackRecord at h
  cases hpf : processFragment evs ths a b tsu cpu payload with
  | none =>
    rw [hpf] at h
    exact Option.noConfusion h
  | some r =>
    obtain ⟨e1, t1, d1⟩ := r
    simp only [hpf, Option.some.injEq, Prod.mk.injEq] at h
    obtain ⟨he, -, -⟩ := h
    subst he
    obtain ⟨n, la, p', f', d', hlen, hla, hscan, -, -, -⟩ :=
      processFragment_some_elim hpf
    obtain ⟨hsh, hext, -⟩ := scanLoop_shape n hscan
    obtain ⟨w, hw⟩ := hext j v hv
    have hjl : j < e1.length := by
      rw [hsh.1]
      exact stackAt_some_lt hv
    refine ⟨w, ?_⟩
    rw [← hw, stackAt, stackAt, evAt_append_lt hjl]

/-- C6 witness: a kernel fragment appending to an already-attached stack: the
prior stack `[70]` is extended, not replaced. -/
theorem c6_stack_monotone_witness :
    processStackRecord [⟨"X", 1, 9, none, 0, false⟩, ⟨"K", 100, 5, some [70], 0, false⟩]
        (oneThread 5 ⟨1, [1]⟩) 5 1 100 0 [1, 0, 0, 0, 0, 0, 0xFF, 0xFF] 7 9
      = some ([⟨"X", 1, 9, none, 0, false⟩,
          ⟨"K", 100, 5, some [70, 0xFFFF000000000001], 0, false⟩,
          ⟨"MSNT_SystemTrace/StackWalk/Stack", 7, 9, none, 0, false⟩],
          setThread (oneThread 5 ⟨1, [1]⟩) 5 ⟨1, [1]⟩, [])
    ∧ stackAt [⟨"X", 1, 9, none, 0, false⟩, ⟨"K", 100, 5, some [70], 0, false⟩] 1
      = some [70]
    ∧ ∃ w,
        stackAt [⟨"X", 1, 9, none, 0, false⟩,
          ⟨"K", 100, 5, some [70, 0xFFFF000000000001], 0, false⟩,
          ⟨"MSNT_SystemTrace/StackWalk/Stack", 7, 9, none, 0, false⟩] 1
          = some ([70] ++ w) :=
  ⟨by rfl, by rfl,
   @c6_stack_monotone [⟨"X", 1, 9, none, 0, false⟩, ⟨"K", 100, 5, some [70], 0, false⟩]
     (oneThread 5 ⟨1, [1]⟩) 5 1 100 0 [1, 0, 0, 0, 0, 0, 0xFF, 0xFF] 7 9
     [⟨"X", 1, 9, none, 0, false⟩,
       ⟨"K", 100, 5, some [70, 0xFFFF000000000001], 0, false⟩,
       ⟨"MSNT_SystemTrace/StackWalk/Stack", 7, 9, none, 0, false⟩]
     (setThread (oneThread 5 ⟨1, [1]⟩) 5 ⟨1, [1]⟩) [] 1 [70] (by rfl) (by rfl)⟩

/-- C7 (confirmed): the bookkeeping invariant — every index in any thread's
`events_with_unfinished_kernel_stacks` refers to a valid Timeline position
whose entry has an attached stack — is preserved by the processing of every
stack-fragment record (kernel-fragment registration, user-fragment resolution
and clearing included). -/
theorem c7_pending_invariant {evs : List Event} {ths : Threads} {a b tsu cpu : Nat}
    {payload : List Nat} {hTs : Int} {hTid : Nat} {evs' : List Event}
    {ths' : Threads} {ds : List Diag}
    (hinv : CorrInv evs ths)
    (h : processStackRecord evs ths a b tsu cpu payload hTs hTid
      = some (evs', ths', ds)) :
    CorrInv evs' ths' := by
  unfold processStackRecord at h
  cases hpf : processFragment evs ths a b tsu cpu payload with
  | none =>
    rw [hpf] at h
    exact Option.noConfusion h
  | some r =>
    obtain ⟨e1, t1, d1⟩ := r
    simp only [hpf, Option.some.injEq, Prod.mk.injEq] at h
    obtain ⟨he, hth, -⟩ := h
    subst he
    subst hth
    obtain ⟨n, la, p', f', d', hlen, hla, hscan, hot, hoa, -⟩ :=
      processFragment_some_elim hpf
    obtain ⟨hsh, hext, hpi⟩ := scanLoop_shape n hscan
    have hp1 : PendInv e1 p' := hpi (fun j hj => hinv a j hj)
    have happend : ∀ j, j < e1.length → (stackAt e1 j).isSome →
        j < (e1 ++ [(⟨"MSNT_SystemTrace/StackWalk/Stack", hTs, hTid, none, cpu,
          false⟩ : Event)]).length
        ∧ (stackAt (e1 ++ [(⟨"MSNT_SystemTrace/StackWalk/Stack", hTs, hTid, none,
          cpu, false⟩ : Event)]) j).isSome := by
      intro j hjl hjs
      refine ⟨?_, ?_⟩
      · rw [List.length_append]
        omega
      · rw [stackAt, evAt_append_lt hjl, ← stackAt]
        exact hjs
    intro t j hj
    by_cases hta : t = a
    · subst hta
      rw [hoa] at hj
      obtain ⟨hjl, hjs⟩ := hp1 j hj
      exact happend j hjl hjs
    · rw [hot t hta] at hj
      obtain ⟨hjl, hjs⟩ := hinv t j hj
      exact happend j (hsh.1 ▸ hjl) (stackExt_isSome hext hjs)

/-- C7 witness: the invariant holds for the empty per-thread map and is carried
through a concrete kernel-fragment registration. -/
theorem c7_pending_invariant_witness :
    CorrInv [⟨"X", 1, 9, none, 0, false⟩, ⟨"E", 100, 5, none, 0, false⟩] emptyThreads
    ∧ processStackRecord [⟨"X", 1, 9, none, 0, false⟩, ⟨"E", 100, 5, none, 0, false⟩]
        emptyThreads 5 1 100 0 [1, 0, 0, 0, 0, 0, 0xFF, 0xFF] 7 9
      = some ([⟨"X", 1, 9, none, 0, false⟩,
          ⟨"E", 100, 5, some [0xFFFF000000000001], 0, false⟩,
          ⟨"MSNT_SystemTrace/StackWalk/Stack", 7, 9, none, 0, false⟩],
          setThread emptyThreads 5 ⟨1, [1]⟩, [])
    ∧ CorrInv [⟨"X", 1, 9, none, 0, false⟩,
        ⟨"E", 100, 5, some [0xFFFF000000000001], 0, false⟩,
        ⟨"MSNT_SystemTrace/StackWalk/Stack", 7, 9, none, 0, false⟩]
        (setThread emptyThreads 5 ⟨1, [1]⟩) :=
  ⟨fun t j hj => absurd hj (List.not_mem_nil j),
   by rfl,
   @c7_pending_invariant [⟨"X", 1, 9, none, 0, false⟩, ⟨"E", 100, 5, none, 0, false⟩]
     emptyThreads 5 1 100 0 [1, 0, 0, 0, 0, 0, 0xFF, 0xFF] 7 9
     [⟨"X", 1, 9, none, 0, false⟩,
       ⟨"E", 100, 5, some [0xFFFF000000000001], 0, false⟩,
       ⟨"MSNT_SystemTrace/StackWalk/Stack", 7, 9, none, 0, false⟩]
     (setThread emptyThreads 5 ⟨1, [1]⟩) []
     (fun t j hj => absurd hj (List.not_mem_nil j)) (by rfl)⟩

/-- C8 (confirmed): when the backward scan finds zero matching indices, the
record's processing emits exactly the "no matching event" diagnostic and
changes nothing else: the Timeline is exactly the old one plus the appended
plain entry for the StackWalk record itself (`stack = none`), every existing
entry is unchanged in every field, and every thread's pending list is
unchanged. -/
theorem c8_no_match_frame {evs : List Event} {ths : Threads} {a b tsu cpu : Nat}
    {payload : List Nat} {hTs : Int} {hTid : Nat} {n la : Nat}
    (hlen : evs.length = n + 1)
    (hla : (decodeStack payload).getLast? = some la)
    (hnone : matchIndices evs (u64_as_i64 tsu) a n = []) :
    ∃ ths',
      processStackRecord evs ths a b tsu cpu payload hTs hTid
        = some (evs ++ [⟨"MSNT_SystemTrace/StackWalk/Stack", hTs, hTid, none, cpu,
            false⟩], ths', [Diag.noMatchingEvent])
      ∧ ∀ t, pendingOf ths' t = pendingOf ths t := by
  have hn : n < evs.length := by omega
  have hscan : scanLoop evs (pendingOf ths a) none [] (decodeStack payload)
      (is_kernel_address la 8) tsu (u64_as_i64 tsu) a cpu n
      = some (evs, pendingOf ths a, none, []) := by
    rw [scanLoop_eq_applyMatches n _ _ _ hn, hnone]
    rfl
  cases hth : ths a with
  | none =>
    have hpo : pendingOf ths a = [] := by
      unfold pendingOf
      rw [hth]
    rw [hpo] at hscan
    refine ⟨setThread ths a ⟨b, []⟩, ?_, ?_⟩
    · unfold processStackRecord processFragment
      simp only [hla, hlen, hth, ThreadState.new, hscan]
      rfl
    · intro t
      by_cases hta : t = a
      · subst hta
        rw [pendingOf_setThread_self, hpo]
      · rw [pendingOf_setThread_ne ths hta]
  | some t0 =>
    have hpo : pendingOf ths a = t0.events_with_unfinished_kernel_stacks := by
      unfold pendingOf
      rw [hth]
    rw [hpo] at hscan
    refine ⟨setThread ths a t0, ?_, ?_⟩
    · unfold processStackRecord processFragment
      simp only [hla, hlen, hth, hscan]
      rfl
    · intro t
      by_cases hta : t = a
      · subst hta
        rw [pendingOf_setThread_self, hpo]
      · rw [pendingOf_setThread_ne ths hta]

/-- C8 witness: the spec's Scenario D — a fragment at timestamp 50, thread 9,
with no matching Timeline event: only the diagnostic and the plain append
happen. -/
theorem c8_no_match_frame_witness :
    (([⟨"X", 10, 1, none, 0, false⟩, ⟨"Y", 60, 2, none, 0, false⟩] : List Event).length
      = 1 + 1)
    ∧ ((decodeStack [1, 0, 0, 0, 0, 0, 0, 0]).getLast? = some 1)
    ∧ (matchIndices [⟨"X", 10, 1, none, 0, false⟩, ⟨"Y", 60, 2, none, 0, false⟩]
        (u64_as_i64 50) 9 1 = [])
    ∧ ∃ ths',
        processStackRecord [⟨"X", 10, 1, none, 0, false⟩, ⟨"Y", 60, 2, none, 0, false⟩]
          emptyThreads 9 3 50 0 [1, 0, 0, 0, 0, 0, 0, 0] 55 9
          = some ([⟨"X", 10, 1, none, 0, false⟩, ⟨"Y", 60, 2, none, 0, false⟩]
              ++ [⟨"MSNT_SystemTrace/StackWalk/Stack", 55, 9, none, 0, false⟩],
              ths', [Diag.noMatchingEvent])
        ∧ ∀ t, pendingOf ths' t = pendingOf emptyThreads t :=
  ⟨by decide, by decide, by decide,
   @c8_no_match_frame [⟨"X", 10, 1, none, 0, false⟩, ⟨"Y", 60, 2, none, 0, false⟩]
     emptyThreads 9 3 50 0 [1, 0, 0, 0, 0, 0, 0, 0] 55 9 1 1
     (by decide) (by decide) (by decide)⟩
